import Mathlib

/-!
Shallow embedding of the `epsilon` convex-optimization solver.

The embedding covers the parts of the repository that the verified
properties refer to:

* dense vectors and the keyed block containers `BlockVector` /
  `BlockMatrix` (`src/epsilon/linear/kronecker_product_impl.cc`, second
  translation unit, which holds `block_vector.cc`);
* the recursive affine compiler `affine::BuildAffineOperator`
  (`src/unnamed/part_001`, i.e. `affine.cc`);
* the Kronecker-product linear map (`kronecker_product_impl.cc`);
* the closed-form proximal operator `LinearProx` (`src/unnamed/part_000`,
  third translation unit);
* the proximal-ADMM solve loop and residual computation
  (`src/epsilon/algorithms/prox_admm.h`, second translation unit, which
  holds `prox_admm.cc`).

Scalars of the numeric code are modelled exactly: the data-structure and
compiler layer uses `ℚ`, and the solver/residual layer is generic over a
linearly ordered field together with a square-root function, instantiated
with `ℝ` and `Real.sqrt` where a concrete numeric statement is needed.
Eigen dense vectors are embedded as finitely supported functions `ℕ → ℚ`
(the data-structure layer) or as `Fin n → K` (the solver layer).
-/

namespace Epsilon

/-! ## Dense vectors (Eigen::VectorXd) -/

/-- A dense vector, embedded as a function from coordinate index to scalar.
Vectors of length `n` are supported on indices `< n`. -/
abbrev Vec : Type := ℕ → ℚ

/-- `Eigen::VectorXd::Constant(n, a)`: the vector of length `n` with every
entry equal to `a`. -/
def constVec (n : ℕ) (a : ℚ) : Vec := fun i => if i < n then a else 0

/-- The `j`-th standard basis vector. -/
def basisVec (j : ℕ) : Vec := fun i => if i = j then 1 else 0

/-! ## Linear maps (`linear_map::LinearMap`)

The repository's `LinearMap` is a polymorphic operator with `m()`, `n()`,
`Apply`, `AsDense`, composition and identity.  The concrete implementation
variants (`scalar_matrix_impl`, `dense_matrix_impl`, ...) are not part of
the provided sources, so the wrapper is embedded semantically.

Modelled from the spec: a `LinearMap` denotes a linear operator with row
count `m` and column count `n`; `Apply` is its action on vectors,
`L * M` denotes composition, `Identity(n)` the identity of dimension `n`,
`L + M` pointwise addition, and `AsDense` is the matrix whose `j`-th
column is `Apply` of the `j`-th basis vector ("`Apply` must match
`AsDense()` multiplication"). -/
structure LMap : Type where
  m : ℕ
  n : ℕ
  app : Vec → Vec

/-- `linear_map::Identity(d)`. -/
def LMap.identity (d : ℕ) : LMap := ⟨d, d, id⟩

/-- Composition `L * M` of linear maps. -/
def LMap.comp (L M : LMap) : LMap := ⟨L.m, M.n, L.app ∘ M.app⟩

/-- Sum `L + M` of linear maps (used when a block key is inserted twice). -/
def LMap.addMap (L M : LMap) : LMap := ⟨L.m, L.n, fun v => L.app v + M.app v⟩

/-- Entry `(i, j)` of `AsDense()` of a linear map: `Apply` at basis vectors.
Modelled from the spec: `Apply` must match `AsDense()` multiplication. -/
def LMap.asDenseEntry (L : LMap) (i j : ℕ) : ℚ := L.app (basisVec j) i

/-- Additivity of a linear map's action (every C++ `LinearMap` variant is
a matrix, hence additive; the semantic embedding states it as a
property). -/
def LMap.Additive (L : LMap) : Prop := ∀ u v : Vec, L.app (u + v) = L.app u + L.app v

/-- The `SCALAR_MATRIX` linear-map variant `alpha * I_n`.
Modelled from the spec: the scalar variant denotes multiplication of every
coordinate by `alpha`. -/
def scalarLMap (alpha : ℚ) (d : ℕ) : LMap := ⟨d, d, fun v i => alpha * v i⟩

/-- A `1 × n` row operator `v ↦ c' v` (the linear map of a term `c'x`). -/
def dotRowLMap (n : ℕ) (c : Vec) : LMap :=
  ⟨1, n, fun v i => if i = 0 then ∑ j ∈ Finset.range n, c j * v j else 0⟩

/-! ## BlockVector (`block_vector.cc`, inside `kronecker_product_impl.cc`)

`BlockVector` stores a `std::map<std::string, DenseVector>`; it is
embedded as an association list with distinct keys produced by
`bvInsertOrAdd`. -/

/-- The underlying keyed storage `data_` of a `BlockVector`. -/
abbrev BVec : Type := List (String × Vec)

/-- `BlockVector::InsertOrAdd`: `data_.insert({key, value})`, and when the
key is already present, `+=` the value onto the stored block instead. -/
def bvInsertOrAdd : BVec → String → Vec → BVec
  | [], k, v => [(k, v)]
  | (k2, v2) :: rest, k, v =>
    if k = k2 then (k2, v2 + v) :: rest else (k2, v2) :: bvInsertOrAdd rest k v

/-- `data_.find(key)`: lookup of a key in the stored map. -/
def bvFind : BVec → String → Option Vec
  | [], _ => none
  | (k2, v2) :: rest, k => if k = k2 then some v2 else bvFind rest k

/-- `BlockVector::operator()(key)`: returns the stored block, and hits
`LOG(FATAL) << key << " not in BlockVector"` when the key is absent.  The
fatal path is embedded as `none`. -/
def bvGet (d : BVec) (k : String) : Option Vec := bvFind d k

/-- `BlockVector::operator+=`: `InsertOrAdd` every entry of the right-hand
side. -/
def bvAddAssign (lhs rhs : BVec) : BVec :=
  rhs.foldl (fun acc kv => bvInsertOrAdd acc kv.1 kv.2) lhs

/-- The keys present in a `BlockVector`. -/
def bvKeys (d : BVec) : List String := d.map Prod.fst

/-- The block a `BlockVector` denotes at a key, under the spec's reading
that an absent key denotes the zero block (used to state `A·x + b`). -/
def bvDenote (d : BVec) (k : String) : Vec := (bvFind d k).getD 0

/-- Merge of two optional blocks by addition, the expected result of
looking up one key after `operator+=`. -/
def mergeOpt : Option Vec → Option Vec → Option Vec
  | some a, some c => some (a + c)
  | some a, none => some a
  | none, some c => some c
  | none, none => none

/-! ## BlockMatrix

`BlockMatrix` maps a pair (row key, column key) to a `LinearMap`.  Its
source file is not among the provided sources.
Modelled from the spec: insertion of a key already present accumulates
(adds) rather than overwrites; `A·x` restricted to a row key is the sum
over the matching row entries of the stored operator applied to the
column-key block of `x`. -/

/-- A (row key, column key) pair. -/
abbrev BKey : Type := String × String

/-- The underlying keyed storage of a `BlockMatrix`. -/
abbrev BMat : Type := List (BKey × LMap)

/-- `BlockMatrix::InsertOrAdd` (accumulating insertion).
Modelled from the spec: insertion of a key already present accumulates. -/
def bmInsertOrAdd : BMat → BKey → LMap → BMat
  | [], k, L => [(k, L)]
  | (k2, L2) :: rest, k, L =>
    if k = k2 then (k2, L2.addMap L) :: rest else (k2, L2) :: bmInsertOrAdd rest k L

/-- Lookup of a (row, column) key in a `BlockMatrix`. -/
def bmFind : BMat → BKey → Option LMap
  | [], _ => none
  | (k2, L2) :: rest, k => if k = k2 then some L2 else bmFind rest k

/-- `(A·x)` restricted to row key `rk`, for an assignment `x` of the
column-key variables.
Modelled from the spec: the row block of `A·x` is the sum of
`A(rk, ck) · x(ck)` over the entries in row `rk`. -/
def bmApplyAt (A : BMat) (x : String → Vec) (rk : String) : Vec :=
  A.foldr (fun e acc => if e.1.1 = rk then e.2.app (x e.1.2) + acc else acc) 0

/-! ## Expression trees and the affine compiler (`affine.cc`)

The compiler `affine::BuildAffineOperatorImpl` dispatches on the node
type through `kLinearFunctions`, which has rules exactly for
`ADD`, `CONSTANT`, `LINEAR_MAP`, `RESHAPE` (a no-op recursion) and
`VARIABLE`.  `ADD` with an argument list is embedded as a binary
constructor; the C++ loop over the argument list is the same left-to-right
accumulation into the shared containers. A `CONSTANT` either carries an
inline scalar (promoted to length `L.n()`) or externally loaded data,
embedded here as an already-resolved dense vector.  Each proto node
carries its dimensions; the embedding stores the dimension on the nodes
that need it (`GetDimension`). -/

inductive Expr : Type where
  | add : Expr → Expr → Expr
  | scalarConst : ℕ → ℚ → Expr
  | dataConst : ℕ → Vec → Expr
  | linearMap : LMap → Expr → Expr
  | reshape : Expr → Expr
  | var : ℕ → String → Expr

/-- `GetDimension(expr)`: the (total) dimension recorded for a node. -/
def Expr.dimOf : Expr → ℕ
  | .add e1 _ => e1.dimOf
  | .scalarConst n _ => n
  | .dataConst n _ => n
  | .linearMap M _ => M.m
  | .reshape e => e.dimOf
  | .var n _ => n

/-- Evaluation of an expression at an assignment of its free variables:
the vector the expression denotes. -/
def Expr.eval : Expr → (String → Vec) → Vec
  | .add e1 e2, x => e1.eval x + e2.eval x
  | .scalarConst n a, _ => constVec n a
  | .dataConst _ v, _ => v
  | .linearMap M e, x => M.app (e.eval x)
  | .reshape e, x => e.eval x
  | .var _ vid, x => x vid

/-- Dimension well-formedness of an expression proto at dimension `d`:
the stored dimensions are consistent with the position the node occupies
(what the C++ protos guarantee by construction). -/
def Expr.wf : Expr → ℕ → Prop
  | .add e1 e2, d => e1.wf d ∧ e2.wf d
  | .scalarConst n _, d => n = d
  | .dataConst _ _, _ => True
  | .linearMap M e, _ => e.wf M.n
  | .reshape e, d => e.wf d
  | .var _ _, _ => True

/-- Every linear-map wrapper occurring in the expression is additive
(true of every C++ `LinearMap`, which denotes a matrix). -/
def Expr.addMaps : Expr → Prop
  | .add e1 e2 => e1.addMaps ∧ e2.addMaps
  | .linearMap M e => M.Additive ∧ e.addMaps
  | .reshape e => e.addMaps
  | _ => True

/-- `affine::BuildAffineOperatorImpl`: structural recursion carrying the
accumulated linear map `L`, inserting into the shared `(A, b)` pair.
* `Add` recurses into the children with the same `L`;
* `Variable` inserts `L` into `A` at `(row_key, variable_id)`;
* `Constant` promotes an inline scalar to length `L.n()` (resp. uses the
  resolved data), applies `L`, and inserts into `b`;
* `LinearMap` recurses with `L` multiplied by the wrapper's operator;
* `Reshape` is dispatched to the `Add` rule, i.e. a pass-through. -/
def buildImpl : Expr → String → LMap → BMat × BVec → BMat × BVec
  | .add e1 e2, rk, L, Ab => buildImpl e2 rk L (buildImpl e1 rk L Ab)
  | .scalarConst _ a, rk, L, Ab =>
    (Ab.1, bvInsertOrAdd Ab.2 rk (L.app (constVec L.n a)))
  | .dataConst _ v, rk, L, Ab => (Ab.1, bvInsertOrAdd Ab.2 rk (L.app v))
  | .linearMap M e, rk, L, Ab => buildImpl e rk (L.comp M) Ab
  | .reshape e, rk, L, Ab => buildImpl e rk L Ab
  | .var _ vid, rk, L, Ab => (bmInsertOrAdd Ab.1 (rk, vid) L, Ab.2)

/-- `affine::BuildAffineOperator`: start the recursion with the identity
of the expression's own dimension. -/
def buildAffineOperator (e : Expr) (rk : String) (Ab : BMat × BVec) :
    BMat × BVec :=
  buildImpl e rk (LMap.identity e.dimOf) Ab

/-- The synthetic test expression `3*x + 5` with `x` a 2-vector:
an `ADD` of a scalar `LINEAR_MAP` wrapper around the variable and a
promoted scalar constant. -/
def expr3x5 : Expr :=
  .add (.linearMap (scalarLMap 3 2) (.var 2 "x")) (.scalarConst 2 5)

/-- The `(A, b)` pair compiled from `3*x + 5` under row key `"r"`. -/
def compiled3x5 : BMat × BVec := buildAffineOperator expr3x5 "r" ([], [])

/-! ## LinearProx (`src/unnamed/part_000`, third translation unit)

`LinearProx::Init` compiles the objective term `f(x) = c'x` into `(A, b)`
with row key `"_"`, checks that `A` has exactly one column key, and sets
`c_ = arg.lambda() * A("_", key).impl().AsDense()`.  `Apply(v) = v - c_`.
The solver constructs every prox operator with
`CreateProxOperator(1/params_.rho(), ...)`, so `lambda = 1/rho`. -/

/-- The coefficient vector `c_` computed by `LinearProx::Init`:
`lambda` times the dense representation of the unique compiled block
(entry `j` of the `1 × n` dense block is `Apply` at the `j`-th basis
vector, coordinate `0`).  `none` embeds the `CHECK_EQ(1, ...)` failure. -/
def linearProxC (lam : ℚ) (e : Expr) : Option Vec :=
  match buildAffineOperator e "_" ([], []) with
  | ([(_, L)], _) => some (fun j => lam * L.app (basisVec j) 0)
  | _ => none

/-- `LinearProx::Apply(v) = v - c_`. -/
def linearProxApply (c : Vec) (v : Vec) : Vec := v - c

/-- The expression tree of a purely linear objective term `c'x` with `x`
an `n`-vector: a `1 × n` linear-map wrapper around the variable. -/
def linearExpr (n : ℕ) (c : Vec) : Expr :=
  .linearMap (dotRowLMap n c) (.var n "x")

/-! ## Kronecker product (`kronecker_product_impl.cc`, first unit)

`KroneckerProductImpl::AsDense` places `A(i,j) * B` at block
`(i*B.rows(), j*B.cols())`; the flat row index `i*B.rows() + bi`
corresponds to the pair `(i, bi)` under `finProdFinEquiv`
(`⟨i, bi⟩ ↦ bi + B.rows() * i`).  `Apply` reshapes the input into a
`B.n() × A.n()` matrix `X` (column-major, Eigen's default:
`X(r, c) = x(c*B.n() + r)`), computes
`(A * (B * X).Transpose()).Transpose()` and flattens it back
column-major (`ToVector`). -/

/-- `KroneckerProductImpl::AsDense()`:
`C.block(i*B.rows(), j*B.cols(), B.rows(), B.cols()) = A(i,j)*B`. -/
def kronAsDense {ma na mb nb : ℕ} (A : Matrix (Fin ma) (Fin na) ℚ)
    (B : Matrix (Fin mb) (Fin nb) ℚ) :
    Matrix (Fin (ma * mb)) (Fin (na * nb)) ℚ :=
  Matrix.of fun r c =>
    A (finProdFinEquiv.symm r).1 (finProdFinEquiv.symm c).1 *
      B (finProdFinEquiv.symm r).2 (finProdFinEquiv.symm c).2

/-- The column-major reshape of a vector of length `na*nb` into an
`nb × na` matrix (the `ToMatrix`/`DenseMatrixImpl` step of `Apply`,
with `m = B_.impl().n()` and `n = A_.impl().n()`). -/
def vecToMatrix {na nb : ℕ} (x : Fin (na * nb) → ℚ) :
    Matrix (Fin nb) (Fin na) ℚ :=
  Matrix.of fun r c => x (finProdFinEquiv ⟨c, r⟩)

/-- The column-major flattening `ToVector` of an `mb × ma` matrix into a
vector of length `ma*mb`. -/
def matrixToVec {ma mb : ℕ} (M : Matrix (Fin mb) (Fin ma) ℚ) :
    Fin (ma * mb) → ℚ :=
  fun k => M (finProdFinEquiv.symm k).2 (finProdFinEquiv.symm k).1

/-- `KroneckerProductImpl::Apply(x)`:
`ToVector((A_*(B_*X).Transpose()).Transpose().impl().AsDense())`. -/
def kronApply {ma na mb nb : ℕ} (A : Matrix (Fin ma) (Fin na) ℚ)
    (B : Matrix (Fin mb) (Fin nb) ℚ) (x : Fin (na * nb) → ℚ) :
    Fin (ma * mb) → ℚ :=
  matrixToVec ((A * (B * vecToMatrix x).transpose).transpose)

/-! ## The ProxADMM solve loop and residuals (`prox_admm.cc`)

The solver state: `N_` objective blocks, constraint matrix `A_` with `m_`
rows, per-block column restrictions `A_i` and their cached transposes
`AiT_`, constant `b_`, the per-block iterates `x_[i]`, previous iterates
`x_prev_`, and the running accumulator `u_`.

Embedding choices: each block's variables form a `p`-dimensional space
and distinct blocks own distinct variables, so `A_*x_[i]` is
`(A i).mulVec (x i)`, `n_ = N * p`, `m_ = m`; the block-indexed vectors
`std::vector<...>` of size `N_` are embedded as `ℕ`-indexed families of
which only indices `< N` are used.  The per-block proximal operators
(`prox_[i]->Apply`, built by the `CreateProxOperator` registry, whose
sources are not provided) are an arbitrary family of functions.  Scalars
are a linearly ordered field `K` with a square-root function `sqrt`. -/

/-- `BlockVector::norm()`: square root of the sum of squared entries. -/
def vecNorm {K : Type} [LinearOrderedField K] (sqrt : K → K) {ι : Type}
    [Fintype ι] (v : ι → K) : K :=
  sqrt (∑ i, v i ^ 2)

/-- The mutable iteration state of `ProxADMMSolver`:
`x_`, `x_prev_` and `u_`. -/
structure SweepState (m p : ℕ) (K : Type) where
  x : ℕ → Fin p → K
  xprev : ℕ → Fin p → K
  u : Fin m → K

/-- The body of the block sweep (`prox_admm.cc` lines 145-150) on the
running pair `(u_, x_)`:
`u_ += A_*x_[i]; x_[i] = prox_[i]->Apply(u_); u_ -= A_*x_[i]`. -/
def blockStep {K : Type} [LinearOrderedField K] {m p : ℕ}
    (A : ℕ → Matrix (Fin m) (Fin p) K)
    (prox : ℕ → (Fin m → K) → Fin p → K)
    (st : (Fin m → K) × (ℕ → Fin p → K)) (i : ℕ) :
    (Fin m → K) × (ℕ → Fin p → K) :=
  let u1 := st.1 + (A i).mulVec (st.2 i)
  let xi := prox i u1
  (u1 - (A i).mulVec xi, Function.update st.2 i xi)

/-- The start-of-iteration update of `u_` (`prox_admm.cc` lines 141-143):
`u_ -= b_; for i: u_ -= A_*x_[i]` — a decrement of the previous `u_`,
not a reinitialization. -/
def uInit {K : Type} [LinearOrderedField K] {m p : ℕ}
    (A : ℕ → Matrix (Fin m) (Fin p) K) (b : Fin m → K) (N : ℕ)
    (u : Fin m → K) (x : ℕ → Fin p → K) : Fin m → K :=
  (List.range N).foldl (fun acc i => acc - (A i).mulVec (x i)) (u - b)

/-- The Gauss–Seidel block sweep: fold of `blockStep` over the blocks in
increasing index order. -/
def sweep {K : Type} [LinearOrderedField K] {m p : ℕ}
    (A : ℕ → Matrix (Fin m) (Fin p) K)
    (prox : ℕ → (Fin m → K) → Fin p → K) (N : ℕ)
    (u : Fin m → K) (x : ℕ → Fin p → K) :
    (Fin m → K) × (ℕ → Fin p → K) :=
  (List.range N).foldl (blockStep A prox) (u, x)

/-- One full ADMM iteration (`prox_admm.cc` lines 140-150):
`x_prev_ = x_`, the `u_` decrement, then the block sweep. -/
def iterStep {K : Type} [LinearOrderedField K] {m p : ℕ}
    (A : ℕ → Matrix (Fin m) (Fin p) K) (b : Fin m → K)
    (prox : ℕ → (Fin m → K) → Fin p → K) (N : ℕ)
    (s : SweepState m p K) : SweepState m p K :=
  let r := sweep A prox N (uInit A b N s.u s.x) s.x
  ⟨r.2, s.x, r.1⟩

/-- The primal-residual vector accumulation of `ComputeResiduals`
(lines 189-195): `Ax_b = b_; for i: Ax_b += A_*x_[i]`. -/
def axbVec {K : Type} [LinearOrderedField K] {m p : ℕ}
    (A : ℕ → Matrix (Fin m) (Fin p) K) (b : Fin m → K) (N : ℕ)
    (x : ℕ → Fin p → K) : Fin m → K :=
  (List.range N).foldl (fun acc i => acc + (A i).mulVec (x i)) b

/-- The `fmax` accumulation of `ComputeResiduals` (lines 190-194):
`max_Ai_xi_norm = b_.norm(); for i: fmax(max_Ai_xi_norm, (A_*x_[i]).norm())`. -/
def maxAxNorm {K : Type} [LinearOrderedField K] (sqrt : K → K) {m p : ℕ}
    (A : ℕ → Matrix (Fin m) (Fin p) K) (b : Fin m → K) (N : ℕ)
    (x : ℕ → Fin p → K) : K :=
  (List.range N).foldl
    (fun acc i => max acc (vecNorm sqrt ((A i).mulVec (x i)))) (vecNorm sqrt b)

/-- The dual-residual accumulation of `ComputeResiduals` (lines 197-204),
iterating `i = N-2, N-3, ..., 0` and carrying `(Ax_diff, s_norm_squared)`:
`Ax_diff += A_*(x_[i+1] - x_prev_[i+1]);`
`s_norm_squared += (AiT_[i]*Ax_diff).norm()^2`.
`sLoopState t` is the carried pair after `t` loop iterations, so the loop
variable is `i = N-2-t`; the final state is at `t = N-1` (zero iterations
when `N ≤ 1`). -/
def sLoopState {K : Type} [LinearOrderedField K] (sqrt : K → K) {m p : ℕ}
    (A : ℕ → Matrix (Fin m) (Fin p) K) (N : ℕ)
    (x xprev : ℕ → Fin p → K) : ℕ → (Fin m → K) × K
  | 0 => (0, 0)
  | t + 1 =>
    let st := sLoopState sqrt A N x xprev t
    let i := N - 2 - t
    let d := st.1 + (A (i + 1)).mulVec (x (i + 1) - xprev (i + 1))
    (d, st.2 + vecNorm sqrt ((A i).transpose.mulVec d) ^ 2)

/-- `s_norm_squared` after the full reverse loop. -/
def sNormSq {K : Type} [LinearOrderedField K] (sqrt : K → K) {m p : ℕ}
    (A : ℕ → Matrix (Fin m) (Fin p) K) (N : ℕ)
    (x xprev : ℕ → Fin p → K) : K :=
  (sLoopState sqrt A N x xprev (N - 1)).2

/-- `r_norm = Ax_b.norm()` (line 207). -/
def rNorm {K : Type} [LinearOrderedField K] (sqrt : K → K) {m p : ℕ}
    (A : ℕ → Matrix (Fin m) (Fin p) K) (b : Fin m → K) (N : ℕ)
    (x : ℕ → Fin p → K) : K :=
  vecNorm sqrt (axbVec A b N x)

/-- `s_norm = rho*sqrt(s_norm_squared)` (line 208). -/
def sNorm {K : Type} [LinearOrderedField K] (sqrt : K → K) {m p : ℕ}
    (A : ℕ → Matrix (Fin m) (Fin p) K) (N : ℕ) (rho : K)
    (x xprev : ℕ → Fin p → K) : K :=
  rho * sqrt (sNormSq sqrt A N x xprev)

/-- `epsilon_primal = abs_tol*sqrt(m_) + rel_tol*max_Ai_xi_norm`
(line 209). -/
def epsPrimal {K : Type} [LinearOrderedField K] (sqrt : K → K) {m p : ℕ}
    (A : ℕ → Matrix (Fin m) (Fin p) K) (b : Fin m → K) (N : ℕ)
    (absTol relTol : K) (x : ℕ → Fin p → K) : K :=
  absTol * sqrt (m : K) + relTol * maxAxNorm sqrt A b N x

/-- `(AT_*u_).norm()`: the blockwise norm of the transposed constraint
matrix applied to `u_` (each block contributes its squared norm). -/
def atuNorm {K : Type} [LinearOrderedField K] (sqrt : K → K) {m p : ℕ}
    (A : ℕ → Matrix (Fin m) (Fin p) K) (N : ℕ) (u : Fin m → K) : K :=
  sqrt (∑ i ∈ Finset.range N, ∑ j, ((A i).transpose.mulVec u) j ^ 2)

/-- `epsilon_dual = abs_tol*sqrt(n_) + rel_tol*rho*(AT_*u_).norm()`
(line 210), with `n_ = N*p` the total variable dimension. -/
def epsDual {K : Type} [LinearOrderedField K] (sqrt : K → K) {m p : ℕ}
    (A : ℕ → Matrix (Fin m) (Fin p) K) (N : ℕ) (rho absTol relTol : K)
    (u : Fin m → K) : K :=
  absTol * sqrt ((N * p : ℕ) : K) + relTol * rho * atuNorm sqrt A N u

/-- The convergence condition of `ComputeResiduals` (lines 212-213):
`r_norm <= epsilon_primal && s_norm <= epsilon_dual`. -/
def passCond {K : Type} [LinearOrderedField K] (sqrt : K → K) {m p : ℕ}
    (A : ℕ → Matrix (Fin m) (Fin p) K) (b : Fin m → K) (N : ℕ)
    (rho absTol relTol : K) (s : SweepState m p K) : Prop :=
  rNorm sqrt A b N s.x ≤ epsPrimal sqrt A b N absTol relTol s.x ∧
    sNorm sqrt A N rho s.x s.xprev ≤ epsDual sqrt A N rho absTol relTol s.u

/-- `SolverStatus::State` (from `solver.proto`). -/
inductive SolverState : Type where
  | notStarted
  | initializing
  | running
  | optimal
  | maxIterationsReached
  | error
deriving DecidableEq

/-- The solver status record: state, the four reported residual values,
and the iteration counter (from `solver.proto` / `SolverStatus`). -/
structure Status (K : Type) where
  state : SolverState
  rNormV : K
  sNormV : K
  epsPrimalV : K
  epsDualV : K
  numIterations : ℕ

/-- `ProxADMMSolver::ComputeResiduals` (lines 181-220): writes the four
residual values, sets the state to `OPTIMAL` exactly when both residual
tests pass (else `RUNNING`), and records the iteration counter. -/
def computeResiduals {K : Type} [LinearOrderedField K] (sqrt : K → K)
    {m p : ℕ} (A : ℕ → Matrix (Fin m) (Fin p) K) (b : Fin m → K) (N : ℕ)
    (rho absTol relTol : K) (s : SweepState m p K) (iter : ℕ) : Status K :=
  let r := rNorm sqrt A b N s.x
  let sn := sNorm sqrt A N rho s.x s.xprev
  let ep := epsPrimal sqrt A b N absTol relTol s.x
  let ed := epsDual sqrt A N rho absTol relTol s.u
  ⟨if r ≤ ep ∧ sn ≤ ed then .optimal else .running, r, sn, ep, ed, iter⟩

/-- The `Solve` loop (lines 139-165), fuel-indexed: `fuel` is the number
of remaining loop iterations (`max_iterations - iter_`).  Each iteration
runs `iterStep`; every `epoch_iterations`-th iteration computes residuals
and breaks when the state is `OPTIMAL`.  When the loop exhausts
(`iter_ == max_iterations`), residuals are recomputed once more and the
state is then overwritten with `MAX_ITERATIONS_REACHED` unconditionally. -/
def solveLoop {K : Type} [LinearOrderedField K] (sqrt : K → K)
    {m p : ℕ} (A : ℕ → Matrix (Fin m) (Fin p) K) (b : Fin m → K)
    (prox : ℕ → (Fin m → K) → Fin p → K) (N : ℕ)
    (rho absTol relTol : K) (epoch : ℕ) :
    ℕ → ℕ → SweepState m p K → Status K → SweepState m p K × Status K
  | 0, iter, s, _ =>
    let st2 := computeResiduals sqrt A b N rho absTol relTol s iter
    (s, { st2 with state := .maxIterationsReached })
  | fuel + 1, iter, s, st =>
    let s2 := iterStep A b prox N s
    if iter % epoch = 0 then
      let st2 := computeResiduals sqrt A b N rho absTol relTol s2 iter
      if st2.state = .optimal then (s2, st2)
      else solveLoop sqrt A b prox N rho absTol relTol epoch fuel (iter + 1) s2 st2
    else solveLoop sqrt A b prox N rho absTol relTol epoch fuel (iter + 1) s2 st

/-- `ProxADMMSolver::Solve` after `Init`: run the loop from iteration `0`
with `max_iterations` fuel, starting from the default-constructed status
(`NOT_STARTED`). -/
def solve {K : Type} [LinearOrderedField K] (sqrt : K → K)
    {m p : ℕ} (A : ℕ → Matrix (Fin m) (Fin p) K) (b : Fin m → K)
    (prox : ℕ → (Fin m → K) → Fin p → K) (N : ℕ)
    (rho absTol relTol : K) (epoch maxIter : ℕ)
    (s0 : SweepState m p K) : SweepState m p K × Status K :=
  solveLoop sqrt A b prox N rho absTol relTol epoch maxIter 0 s0
    ⟨.notStarted, 0, 0, 0, 0, 0⟩

/-! ## Concrete instances used to evaluate the model on small inputs -/

/-- A one-constraint, one-variable instance over `ℚ`: `A = [1]`. -/
def exA : ℕ → Matrix (Fin 1) (Fin 1) ℚ := fun _ => Matrix.of fun _ _ => 1

/-- Constant `b = [1]` for the `ℚ` instance. -/
def exB : Fin 1 → ℚ := fun _ => 1

/-- A proximal operator that always returns `0` (the prox of the
indicator of the origin). -/
def exProx : ℕ → (Fin 1 → ℚ) → Fin 1 → ℚ := fun _ _ _ => 0

/-- The all-zero initial solver state of the `ℚ` instance. -/
def exS0 : SweepState 1 1 ℚ := ⟨fun _ _ => 0, fun _ _ => 0, fun _ => 0⟩

/-- The state of the `ℚ` instance after one full ADMM iteration. -/
def exS1 : SweepState 1 1 ℚ := iterStep exA exB exProx 1 exS0

/-- A two-block, one-dimensional instance over `ℝ` with both block
operators equal to `[1]`. -/
def cA : ℕ → Matrix (Fin 1) (Fin 1) ℝ := fun _ => Matrix.of fun _ _ => 1

/-- Iterates for the `ℝ` instance: block 0 moved from `0` to `1`,
block 1 did not move. -/
def cx : ℕ → Fin 1 → ℝ := fun i => if i = 0 then (fun _ => 1) else fun _ => 0

/-- Previous iterates for the `ℝ` instance: all zero. -/
def cxp : ℕ → Fin 1 → ℝ := fun _ _ => 0

/-- Constant `b = [1]` for the `ℝ` instance. -/
def cB : Fin 1 → ℝ := fun _ => 1

/-- Iterates all equal to `[1]` for the `ℝ` instance. -/
def cx1 : ℕ → Fin 1 → ℝ := fun _ _ => 1

/-! # Theorems -/

/-! ## BlockVector lemmas -/

/-- Looking up the inserted key after `InsertOrAdd`: a fresh key stores
the value, a present key accumulates onto the stored block. -/
theorem bvFind_insertOrAdd (d : BVec) (k : String) (v : Vec) :
    bvFind (bvInsertOrAdd d k v) k =
      some ((bvFind d k).elim v (fun w => w + v)) := by
  induction d with
  | nil => simp [bvInsertOrAdd, bvFind]
  | cons e rest ih =>
    obtain ⟨k2, v2⟩ := e
    by_cases h : k = k2
    · subst h
      simp [bvInsertOrAdd, bvFind]
    · simp [bvInsertOrAdd, bvFind, h, ih]

/-- `InsertOrAdd` does not disturb lookups of other keys. -/
theorem bvFind_insertOrAdd_ne (d : BVec) (k k2 : String) (v : Vec)
    (h : k2 ≠ k) :
    bvFind (bvInsertOrAdd d k v) k2 = bvFind d k2 := by
  induction d with
  | nil => simp [bvInsertOrAdd, bvFind, h]
  | cons e rest ih =>
    obtain ⟨k3, v3⟩ := e
    by_cases h3 : k = k3
    · subst h3
      simp [bvInsertOrAdd, bvFind, h, ih]
    · by_cases h4 : k2 = k3 <;> simp [bvInsertOrAdd, bvFind, h3, h4, ih]

/-- A key that is not among the stored keys has no stored block. -/
theorem bvFind_eq_none (d : BVec) (k : String) (h : k ∉ bvKeys d) :
    bvFind d k = none := by
  induction d with
  | nil => rfl
  | cons e rest ih =>
    obtain ⟨k2, v2⟩ := e
    have h1 : k ≠ k2 := fun he => h (by simp [bvKeys, he])
    have h2 : k ∉ bvKeys rest := fun he => h (by simp [bvKeys] at he ⊢; right; exact he)
    simp [bvFind, h1, ih h2]

/-- `operator+=` does not touch keys absent from the right-hand side. -/
theorem bvAddAssign_find_not_mem (d2 : BVec) :
    ∀ (d1 : BVec) (k : String), k ∉ bvKeys d2 →
      bvFind (bvAddAssign d1 d2) k = bvFind d1 k := by
  induction d2 with
  | nil => intro d1 k _; rfl
  | cons e rest ih =>
    intro d1 k h
    have h1 : k ≠ e.1 := fun he => h (by simp [bvKeys, he])
    have h2 : k ∉ bvKeys rest := fun he => h (by simp [bvKeys] at he ⊢; right; exact he)
    show bvFind (bvAddAssign (bvInsertOrAdd d1 e.1 e.2) rest) k = bvFind d1 k
    rw [ih _ k h2, bvFind_insertOrAdd_ne _ _ _ _ h1]

/-- `operator+=` merges the stored blocks keywise by addition. -/
theorem bvAddAssign_find (d2 : BVec) :
    ∀ (d1 : BVec) (k : String), (bvKeys d2).Nodup →
      bvFind (bvAddAssign d1 d2) k = mergeOpt (bvFind d1 k) (bvFind d2 k) := by
  induction d2 with
  | nil =>
    intro d1 k _
    cases h1 : bvFind d1 k <;> simp [bvAddAssign, bvFind, mergeOpt, h1]
  | cons e rest ih =>
    intro d1 k hnd
    obtain ⟨k2, v2⟩ := e
    have hnd2 : (bvKeys rest).Nodup := (List.nodup_cons.mp hnd).2
    by_cases hk : k = k2
    · subst hk
      have hnm : k ∉ bvKeys rest := (List.nodup_cons.mp hnd).1
      show bvFind (bvAddAssign (bvInsertOrAdd d1 k v2) rest) k = _
      rw [bvAddAssign_find_not_mem rest _ k hnm, bvFind_insertOrAdd]
      cases h1 : bvFind d1 k <;> simp [mergeOpt, bvFind, h1]
    · show bvFind (bvAddAssign (bvInsertOrAdd d1 k2 v2) rest) k = _
      rw [ih _ k hnd2, bvFind_insertOrAdd_ne _ _ _ _ hk]
      simp [bvFind, hk]

/-- C7 counterexample: in a `BlockVector` that already stores `[10]` at
key `"k"`, inserting `(k, [1])` and then `(k, [2])` yields the block
`[13]`, not `[1] + [2] = [3]`: the claim's universal quantification over
every `BlockVector` fails when the key is already present. -/
theorem claim7_counterexample :
    bvFind (bvInsertOrAdd (bvInsertOrAdd [("k", constVec 1 10)] "k"
        (constVec 1 1)) "k" (constVec 1 2)) "k"
      ≠ some (constVec 1 1 + constVec 1 2) := by
  intro h
  rw [bvFind_insertOrAdd, bvFind_insertOrAdd] at h
  simp [bvFind] at h
  have h0 := congrFun h 0
  simp [constVec] at h0

/-- C7 (amended): inserting `(k, v1)` and then `(k, v2)` into a
`BlockVector` that does not already contain `k` yields the block
`v1 + v2` at `k` (inserting under a present key accumulates rather than
overwrites), and `operator+=` merges two `BlockVector`s by blockwise
addition. -/
theorem claim7_insert_accumulates :
    (∀ (d : BVec) (k : String) (v1 v2 : Vec), k ∉ bvKeys d →
      bvFind (bvInsertOrAdd (bvInsertOrAdd d k v1) k v2) k = some (v1 + v2)) ∧
    (∀ (d1 d2 : BVec) (k : String), (bvKeys d2).Nodup →
      bvFind (bvAddAssign d1 d2) k = mergeOpt (bvFind d1 k) (bvFind d2 k)) := by
  constructor
  · intro d k v1 v2 h
    rw [bvFind_insertOrAdd, bvFind_insertOrAdd, bvFind_eq_none d k h]
    rfl
  · intro d1 d2 k h
    exact bvAddAssign_find d2 d1 k h

/-- C7 witness: the amended statement evaluated at concrete inputs,
including the spec's own example `[1,2] + [3,4] = [4,6]`. -/
theorem claim7_witness :
    bvFind (bvInsertOrAdd (bvInsertOrAdd [] "k" (fun i => if i = 0 then 1 else if i = 1 then 2 else 0))
        "k" (fun i => if i = 0 then 3 else if i = 1 then 4 else 0)) "k"
      = some ((fun i => if i = 0 then 1 else if i = 1 then 2 else 0) +
          fun i => if i = 0 then 3 else if i = 1 then 4 else 0) ∧
    bvFind (bvAddAssign [] [("a", constVec 1 1)]) "a"
      = mergeOpt (bvFind [] "a") (bvFind [("a", constVec 1 1)] "a") :=
  ⟨claim7_insert_accumulates.1 [] "k" _ _ (by simp [bvKeys]),
   claim7_insert_accumulates.2 [] [("a", constVec 1 1)] "a" (by simp [bvKeys])⟩

/-- C8 counterexample: reading a missing key through the key-indexed
accessor `BlockVector::operator()` does not yield any block at all (the
code hits `LOG(FATAL)`, embedded as `none`), in particular it does not
yield the zero block. -/
theorem claim8_counterexample :
    bvGet ([] : BVec) "x" = none ∧ ∀ v : Vec, bvGet ([] : BVec) "x" ≠ some v := by
  exact ⟨rfl, fun v h => by simp [bvGet, bvFind] at h⟩

/-- C8 (amended): the additive operations treat a missing key as the zero
block (`+=` of a block under a key absent from the target stores the
incoming block unchanged, as `0 + v`), but the key-indexed accessor
`operator()` fails fatally on a missing key rather than returning zero. -/
theorem claim8_missing_key (d : BVec) (k : String) (hk : k ∉ bvKeys d) :
    bvGet d k = none ∧
    ∀ v : Vec, bvFind (bvAddAssign d [(k, v)]) k = some v := by
  refine ⟨bvFind_eq_none d k hk, fun v => ?_⟩
  show bvFind (bvInsertOrAdd d k v) k = some v
  rw [bvFind_insertOrAdd, bvFind_eq_none d k hk]
  rfl

/-- C8 witness: the amended statement evaluated at a concrete
`BlockVector` that stores key `"a"` but not key `"b"`. -/
theorem claim8_witness :
    bvGet [("a", constVec 1 1)] "b" = none ∧
    ∀ v : Vec, bvFind (bvAddAssign [("a", constVec 1 1)] [("b", v)]) "b" = some v :=
  claim8_missing_key [("a", constVec 1 1)] "b" (by simp [bvKeys])

/-! ## Kronecker product: Apply agrees with AsDense -/

/-- C9: for the Kronecker-product linear map with factors `A` and `B`,
the lazy reshape-multiply-reshape `Apply` computes the same mapping as
multiplication by the explicitly expanded `AsDense()` matrix (the vec
identity `(A ⊗ B) vec(X) = vec(B X Aᵀ)` in column-major layout). -/
theorem claim9_kron_apply_matches_dense {ma na mb nb : ℕ}
    (A : Matrix (Fin ma) (Fin na) ℚ) (B : Matrix (Fin mb) (Fin nb) ℚ)
    (x : Fin (na * nb) → ℚ) :
    (kronAsDense A B).mulVec x = kronApply A B x := by
  funext k
  show ∑ c, kronAsDense A B k c * x c = _
  rw [← Equiv.sum_comp finProdFinEquiv (fun c => kronAsDense A B k c * x c)]
  rw [Fintype.sum_prod_type]
  show _ = ((A * (B * vecToMatrix x).transpose).transpose)
      (finProdFinEquiv.symm k).2 (finProdFinEquiv.symm k).1
  rw [Matrix.transpose_apply, Matrix.mul_apply]
  refine Finset.sum_congr rfl (fun j _ => ?_)
  rw [Matrix.transpose_apply, Matrix.mul_apply, Finset.mul_sum]
  refine Finset.sum_congr rfl (fun q _ => ?_)
  simp only [kronAsDense, vecToMatrix, Matrix.of_apply, Equiv.symm_apply_apply]
  ring

/-! ## BlockMatrix and affine-compiler lemmas -/

/-- `bmApplyAt` on the empty container is the zero block. -/
theorem bmApplyAt_nil (x : String → Vec) (rk : String) : bmApplyAt [] x rk = 0 := rfl

/-- Unfolding `bmApplyAt` over one stored entry. -/
theorem bmApplyAt_cons (e : BKey × LMap) (rest : BMat) (x : String → Vec)
    (rk : String) :
    bmApplyAt (e :: rest) x rk =
      if e.1.1 = rk then e.2.app (x e.1.2) + bmApplyAt rest x rk
      else bmApplyAt rest x rk := rfl

/-- Inserting an operator adds its contribution to the denoted row block
(whether the key was fresh or already present). -/
theorem bmApplyAt_insertOrAdd (A : BMat) (k : BKey) (L : LMap)
    (x : String → Vec) (rk : String) :
    bmApplyAt (bmInsertOrAdd A k L) x rk =
      bmApplyAt A x rk + if k.1 = rk then L.app (x k.2) else 0 := by
  induction A with
  | nil =>
    by_cases h : k.1 = rk <;>
      simp [bmInsertOrAdd, bmApplyAt_cons, bmApplyAt_nil, h]
  | cons e rest ih =>
    obtain ⟨k2, L2⟩ := e
    by_cases h : k = k2
    · subst h
      rw [show bmInsertOrAdd ((k, L2) :: rest) k L = (k, L2.addMap L) :: rest from by
        simp [bmInsertOrAdd]]
      rw [bmApplyAt_cons, bmApplyAt_cons]
      by_cases h1 : k.1 = rk <;> simp [h1, LMap.addMap] <;> abel
    · rw [show bmInsertOrAdd ((k2, L2) :: rest) k L
          = (k2, L2) :: bmInsertOrAdd rest k L from by simp [bmInsertOrAdd, h]]
      rw [bmApplyAt_cons, bmApplyAt_cons, ih]
      by_cases h1 : k2.1 = rk <;> simp [h1] <;> abel

/-- Inserting a block adds its contribution to the denoted block of `b`
(whether the key was fresh or already present). -/
theorem bvDenote_insertOrAdd (b : BVec) (k : String) (v : Vec) (rk : String) :
    bvDenote (bvInsertOrAdd b k v) rk =
      bvDenote b rk + if k = rk then v else 0 := by
  by_cases h : k = rk
  · subst h
    rw [bvDenote, bvFind_insertOrAdd]
    cases h1 : bvFind b k <;> simp [bvDenote, h1]
  · rw [bvDenote, bvFind_insertOrAdd_ne b k rk v (Ne.symm h)]
    simp [bvDenote, h]

/-- The identity linear map is additive. -/
theorem LMap.identity_additive (d : ℕ) : (LMap.identity d).Additive :=
  fun _ _ => rfl

/-- Compiler invariant: compiling an expression under accumulated map `L`
into an existing `(A, b)` pair adds exactly `L.app` of the expression's
value to the denoted row block `A·x + b` at the row key. -/
theorem buildImpl_denote (e : Expr) (rk : String) :
    ∀ (L : LMap) (Ab : BMat × BVec) (x : String → Vec) (d : ℕ),
      e.wf d → L.n = d → L.Additive → e.addMaps →
      bmApplyAt (buildImpl e rk L Ab).1 x rk +
          bvDenote (buildImpl e rk L Ab).2 rk =
        (bmApplyAt Ab.1 x rk + bvDenote Ab.2 rk) + L.app (e.eval x) := by
  induction e with
  | add e1 e2 ih1 ih2 =>
    intro L Ab x d hwf hLn hLa hadd
    rw [show buildImpl (.add e1 e2) rk L Ab
        = buildImpl e2 rk L (buildImpl e1 rk L Ab) from rfl]
    rw [ih2 L _ x d hwf.2 hLn hLa hadd.2, ih1 L Ab x d hwf.1 hLn hLa hadd.1]
    rw [show (Expr.add e1 e2).eval x = e1.eval x + e2.eval x from rfl, hLa]
    abel
  | scalarConst n a =>
    intro L Ab x d hwf hLn hLa _
    have hnd : n = d := hwf
    show bmApplyAt Ab.1 x rk +
        bvDenote (bvInsertOrAdd Ab.2 rk (L.app (constVec L.n a))) rk = _
    rw [bvDenote_insertOrAdd, if_pos rfl]
    show _ = _ + L.app (constVec n a)
    rw [hLn, hnd]
    abel
  | dataConst n v =>
    intro L Ab x d _ _ _ _
    show bmApplyAt Ab.1 x rk + bvDenote (bvInsertOrAdd Ab.2 rk (L.app v)) rk = _
    rw [bvDenote_insertOrAdd, if_pos rfl]
    abel
  | linearMap M e ih =>
    intro L Ab x d hwf hLn hLa hadd
    show bmApplyAt (buildImpl e rk (L.comp M) Ab).1 x rk +
        bvDenote (buildImpl e rk (L.comp M) Ab).2 rk = _
    rw [ih (L.comp M) Ab x M.n hwf rfl
      (fun u v => by
        show L.app (M.app (u + v)) = L.app (M.app u) + L.app (M.app v)
        rw [hadd.1 u v, hLa]) hadd.2]
    rfl
  | reshape e ih =>
    intro L Ab x d hwf hLn hLa hadd
    exact ih L Ab x d hwf hLn hLa hadd
  | var n vid =>
    intro L Ab x d _ _ _ _
    show bmApplyAt (bmInsertOrAdd Ab.1 (rk, vid) L) x rk + bvDenote Ab.2 rk = _
    rw [bmApplyAt_insertOrAdd, if_pos rfl]
    show _ = _ + L.app (x vid)
    abel

/-- C5: `BuildAffineOperator(expr, row_key)` compiles a well-formed
expression over the supported node kinds into `(A, b)` with
`A·x + b` restricted to `row_key` equal to the value of the expression at
any assignment `x`; and on the synthetic expression `3*x + 5` with `x` a
2-vector the compiled `A` block at `("r", "x")` is the scalar-3 operator
(multiplication by `diag(3,3)`) and the compiled `b` block is `[5,5]`. -/
theorem claim5_affine_compiler :
    (∀ (e : Expr) (rk : String) (x : String → Vec), e.wf e.dimOf → e.addMaps →
      bmApplyAt (buildAffineOperator e rk ([], [])).1 x rk +
        bvDenote (buildAffineOperator e rk ([], [])).2 rk = e.eval x) ∧
    bmFind compiled3x5.1 ("r", "x") = some ⟨2, 2, fun v i => 3 * v i⟩ ∧
    bvFind compiled3x5.2 "r" = some (constVec 2 5) := by
  refine ⟨fun e rk x hwf hadd => ?_, rfl, rfl⟩
  have h := buildImpl_denote e rk (LMap.identity e.dimOf) ([], []) x e.dimOf hwf
    rfl (LMap.identity_additive _) hadd
  rw [buildAffineOperator] at *
  rw [h]
  show (0 + (0 : Vec)) + _ = _
  rw [zero_add, zero_add]
  rfl

/-- C5 witness: the compiler-correctness statement applied to the
concrete expression `3*x + 5`, with `x = [7, 7]`, whose well-formedness
side conditions are discharged by computation. -/
theorem claim5_witness :
    bmApplyAt (buildAffineOperator expr3x5 "r" ([], [])).1
        (fun _ i => if i < 2 then 7 else 0) "r" +
      bvDenote (buildAffineOperator expr3x5 "r" ([], [])).2 "r" =
        expr3x5.eval (fun _ i => if i < 2 then 7 else 0) :=
  claim5_affine_compiler.1 expr3x5 "r" _ ⟨trivial, rfl⟩
    ⟨⟨fun u v => funext fun i => mul_add 3 (u i) (v i), trivial⟩, trivial⟩

/-- C6: the closed-form proximal operator for a purely linear objective
`f(x) = c'x`, constructed by the solver with `lambda = 1/rho`, applies as
the translation `Apply(v) = v - c/rho` for every input `v`, coefficient
vector `c`, and penalty `rho > 0`. -/
theorem claim6_linear_prox (n : ℕ) (c : Vec) (rho : ℚ) (_hrho : 0 < rho)
    (hc : ∀ j, n ≤ j → c j = 0) (v : Vec) :
    ∃ cv : Vec, linearProxC (1 / rho) (linearExpr n c) = some cv ∧
      linearProxApply cv v = v - rho⁻¹ • c := by
  refine ⟨_, rfl, ?_⟩
  funext j
  show v j - 1 / rho * (∑ j2 ∈ Finset.range n, c j2 * basisVec j j2)
      = v j - rho⁻¹ * c j
  have hs : ∑ j2 ∈ Finset.range n, c j2 * basisVec j j2
      = if j ∈ Finset.range n then c j else 0 := by
    rw [← Finset.sum_ite_eq' (Finset.range n) j (fun j2 => c j2)]
    refine Finset.sum_congr rfl fun j2 _ => ?_
    simp [basisVec, mul_ite]
  rw [hs]
  by_cases hj : j < n
  · simp [Finset.mem_range, hj, one_div]
  · have hcz : c j = 0 := hc j (by omega)
    simp [Finset.mem_range, hj, hcz]

/-- C6 witness: the linear-prox statement evaluated with `n = 1`,
`c = [3]`, `rho = 2` and `v = 0`. -/
theorem claim6_witness :
    (0 : ℚ) < 2 ∧ (∀ j, 1 ≤ j → constVec 1 3 j = 0) ∧
    ∃ cv : Vec, linearProxC (1 / 2) (linearExpr 1 (constVec 1 3)) = some cv ∧
      linearProxApply cv 0 = 0 - (2 : ℚ)⁻¹ • constVec 1 3 :=
  ⟨by norm_num,
   fun j hj => by simp [constVec]; omega,
   claim6_linear_prox 1 (constVec 1 3) 2 (by norm_num)
     (fun j hj => by simp [constVec]; omega) 0⟩

/-! ## The ADMM block sweep (C1) -/

/-- A fold of subtractions over `range N` subtracts the sum. -/
theorem foldl_sub_range {M : Type} [AddCommGroup M] (f : ℕ → M) (c : M) :
    ∀ N : ℕ, (List.range N).foldl (fun acc i => acc - f i) c
      = c - ∑ i ∈ Finset.range N, f i := by
  intro N
  induction N with
  | zero => simp
  | succ n ih =>
    rw [List.range_succ, List.foldl_append, ih, Finset.sum_range_succ]
    show _ - f n = _
    abel

/-- A fold of additions over `range N` adds the sum. -/
theorem foldl_add_range {M : Type} [AddCommGroup M] (f : ℕ → M) (c : M) :
    ∀ N : ℕ, (List.range N).foldl (fun acc i => acc + f i) c
      = c + ∑ i ∈ Finset.range N, f i := by
  intro N
  induction N with
  | zero => simp
  | succ n ih =>
    rw [List.range_succ, List.foldl_append, ih, Finset.sum_range_succ]
    show _ + f n = _
    abel

/-- The start-of-iteration update of `u_` subtracts `b` and every block's
current contribution from the previous value of `u_`. -/
theorem uInit_eq {K : Type} [LinearOrderedField K] {m p : ℕ}
    (A : ℕ → Matrix (Fin m) (Fin p) K) (b : Fin m → K) (N : ℕ)
    (u : Fin m → K) (x : ℕ → Fin p → K) :
    uInit A b N u x = u - b - ∑ i ∈ Finset.range N, (A i).mulVec (x i) := by
  rw [uInit, foldl_sub_range]

/-- The block sweep leaves blocks with index `≥ N` untouched, and its
final accumulator value is the starting value plus the stale
contributions minus the new contributions. -/
theorem sweep_spec {K : Type} [LinearOrderedField K] {m p : ℕ}
    (A : ℕ → Matrix (Fin m) (Fin p) K)
    (prox : ℕ → (Fin m → K) → Fin p → K) :
    ∀ (N : ℕ) (u : Fin m → K) (x : ℕ → Fin p → K),
      ((sweep A prox N u x).1 =
        u + (∑ i ∈ Finset.range N, (A i).mulVec (x i)) -
          ∑ i ∈ Finset.range N, (A i).mulVec ((sweep A prox N u x).2 i)) ∧
      ∀ j, N ≤ j → (sweep A prox N u x).2 j = x j := by
  intro N
  induction N with
  | zero => intro u x; simp [sweep]
  | succ n ih =>
    intro u x
    have hsw : sweep A prox (n + 1) u x
        = blockStep A prox (sweep A prox n u x) n := by
      rw [sweep, sweep, List.range_succ, List.foldl_append]
      rfl
    obtain ⟨ih1, ih2⟩ := ih u x
    constructor
    · rw [hsw]
      have hb1 : (blockStep A prox (sweep A prox n u x) n).1
          = (sweep A prox n u x).1 + (A n).mulVec ((sweep A prox n u x).2 n)
            - (A n).mulVec (prox n ((sweep A prox n u x).1
                + (A n).mulVec ((sweep A prox n u x).2 n))) := rfl
      have hb2 : ∀ i, (blockStep A prox (sweep A prox n u x) n).2 i
          = Function.update (sweep A prox n u x).2 n
              (prox n ((sweep A prox n u x).1
                + (A n).mulVec ((sweep A prox n u x).2 n))) i := fun _ => rfl
      have hsum : ∑ i ∈ Finset.range n,
          (A i).mulVec ((blockStep A prox (sweep A prox n u x) n).2 i)
          = ∑ i ∈ Finset.range n, (A i).mulVec ((sweep A prox n u x).2 i) :=
        Finset.sum_congr rfl (fun i hi => by
          rw [hb2, Function.update_noteq (Nat.ne_of_lt (Finset.mem_range.mp hi))])
      rw [hb1, Finset.sum_range_succ, Finset.sum_range_succ, hsum, hb2,
        Function.update_same, ih2 n le_rfl, ih1]
      abel
    · intro j hj
      rw [hsw]
      show Function.update (sweep A prox n u x).2 n _ j = x j
      rw [Function.update_noteq (by omega), ih2 j (by omega)]

/-- C1 (amended): in every ADMM iteration the solver updates the running
accumulator `u` at the start of the iteration by subtracting `b` and all
blocks' current contributions from the value `u` had at the end of the
previous iteration (so `u` is reinitialized to `-b - Σ A_i x_i` only in
the first iteration, where it starts at zero, and accumulates across
iterations otherwise), then performs for each block `i` in increasing
index order exactly: (1) add the stale contribution `A_i x_i` to `u`,
(2) set `x_i` to `prox_i` applied to `u`, (3) subtract the new
contribution `A_i x_i` from `u`; consequently at the end of every
iteration `u` equals its previous value minus `b` minus the sum of all
blocks' new contributions. -/
theorem claim1_sweep_amended {K : Type} [LinearOrderedField K] {m p : ℕ}
    (A : ℕ → Matrix (Fin m) (Fin p) K) (b : Fin m → K)
    (prox : ℕ → (Fin m → K) → Fin p → K) (N : ℕ) (s : SweepState m p K) :
    uInit A b N s.u s.x
        = s.u - b - ∑ i ∈ Finset.range N, (A i).mulVec (s.x i) ∧
    iterStep A b prox N s =
      ⟨(sweep A prox N (uInit A b N s.u s.x) s.x).2, s.x,
        (sweep A prox N (uInit A b N s.u s.x) s.x).1⟩ ∧
    (iterStep A b prox N s).u =
      s.u - b - ∑ i ∈ Finset.range N, (A i).mulVec ((iterStep A b prox N s).x i) := by
  refine ⟨uInit_eq A b N s.u s.x, rfl, ?_⟩
  obtain ⟨h1, _⟩ := sweep_spec A prox N (uInit A b N s.u s.x) s.x
  have hx : (iterStep A b prox N s).x
      = (sweep A prox N (uInit A b N s.u s.x) s.x).2 := rfl
  show (sweep A prox N (uInit A b N s.u s.x) s.x).1 = _
  rw [hx, h1, uInit_eq]
  abel

/-- C1 counterexample: on a concrete one-block instance (`A = [1]`,
`b = [1]`, prox constantly `0`, all-zero start), at the start of the
second iteration `u` equals `-2`, not `-b - Σ A_i x_i = -1`: the
accumulator is not reinitialized from scratch each iteration. -/
theorem claim1_counterexample :
    uInit exA exB 1 exS1.u exS1.x ≠
      -exB - ∑ i ∈ Finset.range 1, (exA i).mulVec (exS1.x i) := by
  intro h
  rw [uInit_eq] at h
  have h0 := congrFun h 0
  rw [Finset.sum_range_one] at h0
  have hx : exS1.x 0 = fun _ => 0 := by
    funext q
    simp [exS1, iterStep, sweep, blockStep, exProx, exS0, List.range_succ]
  have hu : exS1.u = fun _ => -1 := by
    funext q
    simp [exS1, iterStep, sweep, blockStep, uInit, exProx, exS0, exA, exB,
      List.range_succ, Matrix.mulVec, Matrix.dotProduct]
  rw [hx, hu] at h0
  simp [exA, exB, Matrix.mulVec, Matrix.dotProduct] at h0

/-! ## Residual computation (C3, C4, C10) -/

/-- Closed form of the reverse dual-residual loop: after `t` iterations,
`Ax_diff` holds the contributions of the top `t` blocks and
`s_norm_squared` the squared block norms for the rows already visited. -/
theorem sLoopState_spec {K : Type} [LinearOrderedField K] (sqrt : K → K)
    {m p : ℕ} (A : ℕ → Matrix (Fin m) (Fin p) K) (N : ℕ)
    (x xprev : ℕ → Fin p → K) :
    ∀ t, t ≤ N - 1 →
      ((sLoopState sqrt A N x xprev t).1 =
        ∑ j ∈ Finset.Ico (N - t) N, (A j).mulVec (x j - xprev j)) ∧
      (sLoopState sqrt A N x xprev t).2 =
        ∑ i ∈ Finset.Ico (N - 1 - t) (N - 1),
          vecNorm sqrt ((A i).transpose.mulVec
            (∑ j ∈ Finset.Ico (i + 1) N, (A j).mulVec (x j - xprev j))) ^ 2 := by
  intro t
  induction t with
  | zero =>
    intro _
    constructor <;> simp [sLoopState]
  | succ t2 ih =>
    intro ht
    have hN : t2 + 2 ≤ N := by omega
    obtain ⟨ih1, ih2⟩ := ih (by omega)
    have hd : (sLoopState sqrt A N x xprev t2).1
        + (A (N - 2 - t2 + 1)).mulVec
            (x (N - 2 - t2 + 1) - xprev (N - 2 - t2 + 1))
        = ∑ j ∈ Finset.Ico (N - 2 - t2 + 1) N, (A j).mulVec (x j - xprev j) := by
      rw [ih1]
      have hx1 : N - 2 - t2 + 1 = N - (t2 + 1) := by omega
      rw [hx1, Finset.sum_eq_sum_Ico_succ_bot (show N - (t2 + 1) < N by omega)]
      have hx2 : N - (t2 + 1) + 1 = N - t2 := by omega
      rw [hx2, add_comm]
    constructor
    · show (sLoopState sqrt A N x xprev t2).1
          + (A (N - 2 - t2 + 1)).mulVec
              (x (N - 2 - t2 + 1) - xprev (N - 2 - t2 + 1)) = _
      rw [hd]
      have hx1 : N - 2 - t2 + 1 = N - (t2 + 1) := by omega
      rw [hx1]
    · show (sLoopState sqrt A N x xprev t2).2
          + vecNorm sqrt ((A (N - 2 - t2)).transpose.mulVec
              ((sLoopState sqrt A N x xprev t2).1
                + (A (N - 2 - t2 + 1)).mulVec
                    (x (N - 2 - t2 + 1) - xprev (N - 2 - t2 + 1)))) ^ 2 = _
      rw [hd, ih2]
      have ha1 : N - 1 - (t2 + 1) = N - 2 - t2 := by omega
      rw [ha1, Finset.sum_eq_sum_Ico_succ_bot (show N - 2 - t2 < N - 1 by omega)]
      have hx3 : N - 2 - t2 + 1 = N - 1 - t2 := by omega
      rw [hx3, add_comm]

/-- C3 (amended): the reported dual residual is
`s_norm = rho * sqrt(Σ_{i=0}^{N-2} ‖A_iᵀ (Σ_{j=i+1}^{N-1} A_j (x_j − x_j_prev))‖²)`,
the reverse-order accumulation over blocks: block `i` contributes the
norm of its transpose applied to the partial sum of the *later* blocks'
contribution changes, not a single norm of `Σ_i A_iᵀ (x_i − x_i_prev)`. -/
theorem claim3_dual_residual {K : Type} [LinearOrderedField K] (sqrt : K → K)
    {m p : ℕ} (A : ℕ → Matrix (Fin m) (Fin p) K) (N : ℕ) (rho : K)
    (x xprev : ℕ → Fin p → K) :
    sNorm sqrt A N rho x xprev =
      rho * sqrt (∑ i ∈ Finset.range (N - 1),
        vecNorm sqrt ((A i).transpose.mulVec
          (∑ j ∈ Finset.Ico (i + 1) N, (A j).mulVec (x j - xprev j))) ^ 2) := by
  have h := (sLoopState_spec sqrt A N x xprev (N - 1) le_rfl).2
  rw [sNorm, sNormSq, h, Nat.sub_self, ← Finset.range_eq_Ico]

/-- C3 counterexample: on a concrete two-block instance (`A_0 = A_1 =
[1]`, `rho = 1`, block 0 moved by 1, block 1 unchanged) the code reports
`s_norm = 0` (the reverse loop only sees block 1's zero change), while
the claimed formula `rho·‖Σ_i A_iᵀ(x_i − x_i_prev)‖` evaluates to `1`. -/
theorem claim3_counterexample :
    sNorm Real.sqrt cA 2 1 cx cxp ≠
      1 * vecNorm Real.sqrt (∑ i ∈ Finset.range 2,
        (cA i).transpose.mulVec (cx i - cxp i)) := by
  have hL : sNorm Real.sqrt cA 2 1 cx cxp = 0 := by
    simp [sNorm, sNormSq, sLoopState, vecNorm, cA, cx, cxp,
      Matrix.mulVec, Matrix.dotProduct, Real.sqrt_zero]
  have hR : (1 : ℝ) * vecNorm Real.sqrt (∑ i ∈ Finset.range 2,
      (cA i).transpose.mulVec (cx i - cxp i)) = 1 := by
    have hs : ∑ i ∈ Finset.range 2, (cA i).transpose.mulVec (cx i - cxp i)
        = fun _ => 1 := by
      funext q
      rw [Finset.sum_range_succ, Finset.sum_range_one]
      simp [cA, cx, cxp, Matrix.mulVec, Matrix.dotProduct, Matrix.transpose]
    rw [hs]
    simp [vecNorm, Real.sqrt_one]
  rw [hL, hR]
  norm_num

/-- A fold of `max` over `range N` computes the maximum of the seed and
the pointwise maxima. -/
theorem foldl_max_range {K : Type} [LinearOrder K] (f : ℕ → K) (c : K) :
    ∀ (N : ℕ) (hN : N ≠ 0),
      (List.range N).foldl (fun acc i => max acc (f i)) c
        = max c ((Finset.range N).sup' (Finset.nonempty_range_iff.mpr hN) f) := by
  intro N
  induction N with
  | zero => intro hN; exact absurd rfl hN
  | succ n ih =>
    intro _
    by_cases hn : n = 0
    · subst hn
      simp [List.range_succ]
    · rw [List.range_succ, List.foldl_append, ih hn]
      show max (max c _) (f n) = _
      simp only [Finset.range_succ]
      rw [show (insert n (Finset.range n)).sup' (Finset.insert_nonempty _ _) f
            = f n ⊔ (Finset.range n).sup'
                (Finset.nonempty_range_iff.mpr hn) f
          from Finset.sup'_insert (Finset.nonempty_range_iff.mpr hn) f]
      rw [sup_eq_max, max_assoc]
      exact congrArg (max c) (max_comm _ (f n))

/-- C4 (amended): at each convergence check the primal residual is
`r_norm = ‖b + Σ_i A_i x_i‖` for the compiled constant block `b` (the
compiled affine form is `A x + b`, so the sign of `b` is `+`, not `−`),
and the tolerances are
`ε_primal = √m·abs_tol + rel_tol·max(‖b‖, max_i ‖A_i x_i‖)` and
`ε_dual = √n·abs_tol + rel_tol·rho·‖Aᵀu‖` with `m`, `n` the constraint-
and variable-space dimensions. -/
theorem claim4_residuals {K : Type} [LinearOrderedField K] (sqrt : K → K)
    {m p : ℕ} (A : ℕ → Matrix (Fin m) (Fin p) K) (b : Fin m → K) (N : ℕ)
    (rho absTol relTol : K) (hN : 0 < N) (x : ℕ → Fin p → K)
    (u : Fin m → K) :
    rNorm sqrt A b N x
        = vecNorm sqrt (b + ∑ i ∈ Finset.range N, (A i).mulVec (x i)) ∧
    epsPrimal sqrt A b N absTol relTol x
        = absTol * sqrt (m : K) + relTol *
            max (vecNorm sqrt b)
              ((Finset.range N).sup'
                (Finset.nonempty_range_iff.mpr (Nat.pos_iff_ne_zero.mp hN))
                (fun i => vecNorm sqrt ((A i).mulVec (x i)))) ∧
    epsDual sqrt A N rho absTol relTol u
        = absTol * sqrt ((N * p : ℕ) : K) + relTol * rho *
            vecNorm sqrt
              (fun q : Fin N × Fin p => ((A (q.1 : ℕ)).transpose.mulVec u) q.2) := by
  refine ⟨?_, ?_, ?_⟩
  · rw [rNorm, axbVec, foldl_add_range]
  · rw [epsPrimal, maxAxNorm,
      foldl_max_range (fun i => vecNorm sqrt ((A i).mulVec (x i)))
        (vecNorm sqrt b) N (Nat.pos_iff_ne_zero.mp hN)]
  · rw [epsDual, atuNorm, vecNorm]
    have hsum : ∑ i ∈ Finset.range N, ∑ j, ((A i).transpose.mulVec u) j ^ 2
        = ∑ q : Fin N × Fin p, ((A (q.1 : ℕ)).transpose.mulVec u) q.2 ^ 2 := by
      rw [Fintype.sum_prod_type, ← Fin.sum_univ_eq_sum_range
        (fun i => ∑ j, ((A i).transpose.mulVec u) j ^ 2) N]
    rw [hsum]

/-- C4 counterexample: on a concrete instance with `A = [1]`, `b = [1]`,
`x = [1]`, the code reports `r_norm = ‖A x + b‖ = 2`, while the claimed
formula `‖Σ_i A_i x_i − b‖` evaluates to `0`. -/
theorem claim4_counterexample :
    rNorm Real.sqrt cA cB 1 cx1 ≠
      vecNorm Real.sqrt ((∑ i ∈ Finset.range 1, (cA i).mulVec (cx1 i)) - cB) := by
  have hL : rNorm Real.sqrt cA cB 1 cx1 = 2 := by
    have hv : axbVec cA cB 1 cx1 = fun _ => 2 := by
      funext q
      simp [axbVec, cA, cB, cx1, List.range_succ, Matrix.mulVec,
        Matrix.dotProduct]
      norm_num
    have h4 : vecNorm Real.sqrt (fun _ : Fin 1 => (2 : ℝ)) = Real.sqrt 4 := by
      rw [vecNorm, Fin.sum_univ_one]
      norm_num
    rw [rNorm, hv, h4, show (4 : ℝ) = 2 ^ 2 by norm_num,
      Real.sqrt_sq (by norm_num)]
  have hR : vecNorm Real.sqrt
      ((∑ i ∈ Finset.range 1, (cA i).mulVec (cx1 i)) - cB) = 0 := by
    have hv : (∑ i ∈ Finset.range 1, (cA i).mulVec (cx1 i)) - cB
        = fun _ => 0 := by
      funext q
      simp [cA, cB, cx1, Finset.sum_range_one, Matrix.mulVec,
        Matrix.dotProduct]
    rw [hv]
    simp [vecNorm, Real.sqrt_zero]
  rw [hL, hR]
  norm_num

/-- C4 witness: the amended residual formulas evaluated on a concrete
one-block instance over `ℚ` (with the identity as stand-in square root,
which the statement is generic over). -/
theorem claim4_witness :
    (0 : ℕ) < 1 ∧
    rNorm id exA exB 1 (fun _ _ => 0)
      = vecNorm id (exB + ∑ i ∈ Finset.range 1, (exA i).mulVec 0) :=
  ⟨Nat.one_pos,
   (claim4_residuals id exA exB 1 0 0 0 Nat.one_pos (fun _ _ => 0)
     (fun _ => 0)).1⟩

/-- C10: with a single objective block (`N = 1`) the dual-residual loop
performs zero passes, so the reported `s_norm` is exactly `0`; given
nonnegative solver parameters the dual half of the convergence test is
then vacuous and convergence depends only on the primal residual. -/
theorem claim10_single_block {m p : ℕ}
    (A : ℕ → Matrix (Fin m) (Fin p) ℝ) (b : Fin m → ℝ)
    (rho absTol relTol : ℝ) (ha : 0 ≤ absTol) (hr : 0 ≤ relTol)
    (hrho : 0 ≤ rho) (s : SweepState m p ℝ) :
    sNorm Real.sqrt A 1 rho s.x s.xprev = 0 ∧
    (passCond Real.sqrt A b 1 rho absTol relTol s ↔
      rNorm Real.sqrt A b 1 s.x ≤ epsPrimal Real.sqrt A b 1 absTol relTol s.x) := by
  have hs : sNorm Real.sqrt A 1 rho s.x s.xprev = 0 := by
    rw [sNorm, sNormSq]
    rw [show (sLoopState Real.sqrt A 1 s.x s.xprev (1 - 1)).2 = 0 from rfl,
      Real.sqrt_zero, mul_zero]
  refine ⟨hs, ?_⟩
  unfold passCond
  rw [hs]
  constructor
  · exact fun h => h.1
  · intro h
    refine ⟨h, ?_⟩
    rw [epsDual, atuNorm]
    exact add_nonneg (mul_nonneg ha (Real.sqrt_nonneg _))
      (mul_nonneg (mul_nonneg hr hrho) (Real.sqrt_nonneg _))

/-- C10 witness: the single-block statement evaluated on a concrete
instance over `ℝ` with zero tolerances and penalty. -/
theorem claim10_witness :
    ((0 : ℝ) ≤ 0) ∧
    sNorm Real.sqrt cA 1 0 (fun _ _ => 0) (fun _ _ => 0) = 0 :=
  ⟨le_refl 0,
   (claim10_single_block cA cB 0 0 0 (le_refl 0) (le_refl 0) (le_refl 0)
     ⟨fun _ _ => 0, fun _ _ => 0, fun _ => 0⟩).1⟩

/-! ## Termination and status (C2) -/

/-- `ComputeResiduals` leaves the solver in state `OPTIMAL` exactly when
both residual tests pass. -/
theorem computeResiduals_state_optimal {K : Type} [LinearOrderedField K]
    (sqrt : K → K) {m p : ℕ} (A : ℕ → Matrix (Fin m) (Fin p) K)
    (b : Fin m → K) (N : ℕ) (rho absTol relTol : K)
    (s : SweepState m p K) (iter : ℕ) :
    (computeResiduals sqrt A b N rho absTol relTol s iter).state
        = SolverState.optimal ↔ passCond sqrt A b N rho absTol relTol s := by
  by_cases h : rNorm sqrt A b N s.x ≤ epsPrimal sqrt A b N absTol relTol s.x ∧
      sNorm sqrt A N rho s.x s.xprev ≤ epsDual sqrt A N rho absTol relTol s.u
  · simp [computeResiduals, passCond, h]
  · simp [computeResiduals, passCond, h]

/-- Unfolding the solve loop at zero fuel: the post-loop
`iter_ == max_iterations` block recomputes residuals and then
unconditionally sets `MAX_ITERATIONS_REACHED`. -/
theorem solveLoop_zero {K : Type} [LinearOrderedField K] (sqrt : K → K)
    {m p : ℕ} (A : ℕ → Matrix (Fin m) (Fin p) K) (b : Fin m → K)
    (prox : ℕ → (Fin m → K) → Fin p → K) (N : ℕ)
    (rho absTol relTol : K) (epoch iter : ℕ)
    (s : SweepState m p K) (st : Status K) :
    solveLoop sqrt A b prox N rho absTol relTol epoch 0 iter s st
      = (s, { computeResiduals sqrt A b N rho absTol relTol s iter with
          state := SolverState.maxIterationsReached }) := rfl

/-- Unfolding the solve loop at positive fuel: one sweep, then the
epoch-gated residual check with early exit on `OPTIMAL`. -/
theorem solveLoop_succ {K : Type} [LinearOrderedField K] (sqrt : K → K)
    {m p : ℕ} (A : ℕ → Matrix (Fin m) (Fin p) K) (b : Fin m → K)
    (prox : ℕ → (Fin m → K) → Fin p → K) (N : ℕ)
    (rho absTol relTol : K) (epoch fuel iter : ℕ)
    (s : SweepState m p K) (st : Status K) :
    solveLoop sqrt A b prox N rho absTol relTol epoch (fuel + 1) iter s st
      = if iter % epoch = 0 then
          (if (computeResiduals sqrt A b N rho absTol relTol
                (iterStep A b prox N s) iter).state = SolverState.optimal
            then (iterStep A b prox N s,
              computeResiduals sqrt A b N rho absTol relTol
                (iterStep A b prox N s) iter)
            else solveLoop sqrt A b prox N rho absTol relTol epoch fuel
              (iter + 1) (iterStep A b prox N s)
              (computeResiduals sqrt A b N rho absTol relTol
                (iterStep A b prox N s) iter))
        else solveLoop sqrt A b prox N rho absTol relTol epoch fuel
          (iter + 1) (iterStep A b prox N s) st := rfl

/-- Characterization of the loop's final state: `OPTIMAL` exactly when
some epoch-aligned in-loop residual check within the remaining fuel
passes, and the final state is always `OPTIMAL` or
`MAX_ITERATIONS_REACHED`. -/
theorem solveLoop_spec {K : Type} [LinearOrderedField K] (sqrt : K → K)
    {m p : ℕ} (A : ℕ → Matrix (Fin m) (Fin p) K) (b : Fin m → K)
    (prox : ℕ → (Fin m → K) → Fin p → K) (N : ℕ)
    (rho absTol relTol : K) (epoch : ℕ) :
    ∀ (fuel iter : ℕ) (s : SweepState m p K) (st : Status K),
      ((solveLoop sqrt A b prox N rho absTol relTol epoch fuel iter s st).2.state
          = SolverState.optimal ↔
        ∃ t, t < fuel ∧ (iter + t) % epoch = 0 ∧
          passCond sqrt A b N rho absTol relTol
            ((iterStep A b prox N)^[t + 1] s)) ∧
      ((solveLoop sqrt A b prox N rho absTol relTol epoch fuel iter s st).2.state
          = SolverState.optimal ∨
       (solveLoop sqrt A b prox N rho absTol relTol epoch fuel iter s st).2.state
          = SolverState.maxIterationsReached) := by
  intro fuel
  induction fuel with
  | zero =>
    intro iter s st
    rw [solveLoop_zero]
    constructor
    · constructor
      · intro h
        exact absurd h (by simp)
      · rintro ⟨t, ht, _⟩
        exact absurd ht (Nat.not_lt_zero t)
    · right
      rfl
  | succ fuel ih =>
    intro iter s st
    rw [solveLoop_succ]
    by_cases he : iter % epoch = 0
    · rw [if_pos he]
      by_cases hp : passCond sqrt A b N rho absTol relTol (iterStep A b prox N s)
      · have hst : (computeResiduals sqrt A b N rho absTol relTol
            (iterStep A b prox N s) iter).state = SolverState.optimal :=
          (computeResiduals_state_optimal sqrt A b N rho absTol relTol
            (iterStep A b prox N s) iter).mpr hp
        rw [if_pos hst]
        refine ⟨iff_of_true hst ⟨0, Nat.succ_pos fuel, by simpa using he,
          by simpa using hp⟩, Or.inl hst⟩
      · have hst : ¬ (computeResiduals sqrt A b N rho absTol relTol
            (iterStep A b prox N s) iter).state = SolverState.optimal :=
          fun hc => hp ((computeResiduals_state_optimal sqrt A b N rho absTol
            relTol (iterStep A b prox N s) iter).mp hc)
        rw [if_neg hst]
        obtain ⟨ih1, ih2⟩ := ih (iter + 1) (iterStep A b prox N s)
          (computeResiduals sqrt A b N rho absTol relTol
            (iterStep A b prox N s) iter)
        refine ⟨ih1.trans ⟨?_, ?_⟩, ih2⟩
        · rintro ⟨t, ht, hmod, hpass⟩
          refine ⟨t + 1, by omega, ?_, ?_⟩
          · have harith : iter + (t + 1) = iter + 1 + t := by omega
            rw [harith]
            exact hmod
          · rw [Function.iterate_succ_apply]
            exact hpass
        · rintro ⟨t, ht, hmod, hpass⟩
          cases t with
          | zero =>
            exfalso
            exact hp (by simpa using hpass)
          | succ t2 =>
            refine ⟨t2, by omega, ?_, ?_⟩
            · have harith : iter + 1 + t2 = iter + (t2 + 1) := by omega
              rw [harith]
              exact hmod
            · rw [← Function.iterate_succ_apply]
              exact hpass
    · rw [if_neg he]
      obtain ⟨ih1, ih2⟩ := ih (iter + 1) (iterStep A b prox N s) st
      refine ⟨ih1.trans ⟨?_, ?_⟩, ih2⟩
      · rintro ⟨t, ht, hmod, hpass⟩
        refine ⟨t + 1, by omega, ?_, ?_⟩
        · have harith : iter + (t + 1) = iter + 1 + t := by omega
          rw [harith]
          exact hmod
        · rw [Function.iterate_succ_apply]
          exact hpass
      · rintro ⟨t, ht, hmod, hpass⟩
        cases t with
        | zero =>
          exfalso
          exact he (by simpa using hmod)
        | succ t2 =>
          refine ⟨t2, by omega, ?_, ?_⟩
          · have harith : iter + 1 + t2 = iter + (t2 + 1) := by omega
            rw [harith]
            exact hmod
          · rw [← Function.iterate_succ_apply]
            exact hpass

/-- C2: `Solve` terminates with state `OPTIMAL` if and only if some
in-loop residual check (performed at the end of iterations whose index is
a multiple of `epoch_iterations`, before the iteration cap) finds both
the primal residual within `epsilon_primal` and the dual residual within
`epsilon_dual`; if the iteration counter reaches `max_iterations` before
such a check succeeds, the final state is `MAX_ITERATIONS_REACHED` and
never `OPTIMAL`. -/
theorem claim2_termination {K : Type} [LinearOrderedField K] (sqrt : K → K)
    {m p : ℕ} (A : ℕ → Matrix (Fin m) (Fin p) K) (b : Fin m → K)
    (prox : ℕ → (Fin m → K) → Fin p → K) (N : ℕ)
    (rho absTol relTol : K) (epoch maxIter : ℕ) (_hepoch : 0 < epoch)
    (s0 : SweepState m p K) :
    ((solve sqrt A b prox N rho absTol relTol epoch maxIter s0).2.state
        = SolverState.optimal ↔
      ∃ k, k < maxIter ∧ k % epoch = 0 ∧
        passCond sqrt A b N rho absTol relTol
          ((iterStep A b prox N)^[k + 1] s0)) ∧
    ((¬ ∃ k, k < maxIter ∧ k % epoch = 0 ∧
        passCond sqrt A b N rho absTol relTol
          ((iterStep A b prox N)^[k + 1] s0)) →
      (solve sqrt A b prox N rho absTol relTol epoch maxIter s0).2.state
        = SolverState.maxIterationsReached) := by
  obtain ⟨h1, h2⟩ := solveLoop_spec sqrt A b prox N rho absTol relTol epoch
    maxIter 0 s0 ⟨SolverState.notStarted, 0, 0, 0, 0, 0⟩
  have h1z : (solve sqrt A b prox N rho absTol relTol epoch maxIter s0).2.state
      = SolverState.optimal ↔
      ∃ k, k < maxIter ∧ k % epoch = 0 ∧
        passCond sqrt A b N rho absTol relTol ((iterStep A b prox N)^[k + 1] s0) := by
    rw [solve]
    rw [h1]
    constructor
    · rintro ⟨t, ht, hmod, hpass⟩
      exact ⟨t, ht, by simpa using hmod, hpass⟩
    · rintro ⟨k, hk, hmod, hpass⟩
      exact ⟨k, hk, by simpa using hmod, hpass⟩
  refine ⟨h1z, fun hn => ?_⟩
  rcases h2 with ho | hm
  · exact absurd (h1z.mp ho) hn
  · exact hm

/-- C2 witness: the termination statement evaluated on a concrete trivial
instance (`epoch_iterations = 1`, `max_iterations = 0`), with the
positivity of `epoch_iterations` discharged by computation. -/
theorem claim2_witness :
    0 < 1 ∧
    ((solve id exA exB exProx 1 0 0 0 1 0 exS0).2.state
        = SolverState.optimal ↔
      ∃ k, k < 0 ∧ k % 1 = 0 ∧
        passCond id exA exB 1 0 0 0 ((iterStep exA exB exProx 1)^[k + 1] exS0)) :=
  ⟨Nat.one_pos,
   (claim2_termination id exA exB exProx 1 0 0 0 1 0 Nat.one_pos exS0).1⟩

end Epsilon
